import Mathlib

/-!
Shallow embedding of `wordle.py` (orborde/wordle): the feedback evaluator
(`hint`), the partitioner (`possibilities_by_hint`), and the memoized
expectation-minimization search engine (`Run.best_guess` /
`Run.expected_guesses_after`).

Python exceptions are modelled by `Except WordleError`; the unbounded
recursion of `best_guess` is modelled with an explicit fuel parameter
(`WordleError.outOfFuel` for exhausted fuel, so "the computation fails with
`outOfFuel` for every fuel" is the embedding of nontermination).  The mutable
memo dictionary `Run._knowledge_states_seen` is threaded explicitly as an
association list; consing a fresh entry to the front and looking up the first
match reproduces the Python dict's lookup behaviour (keys are the raw ordered
tuples of candidate words, exactly as in the source).  Logging and the
progress callback are out of scope per the specification.
-/

set_option maxRecDepth 8192

namespace Wordle

/-- The three feedback symbols of `HintPiece` in the source
(`GREEN`/`YELLOW`/`GRAY`). -/
inductive HintPiece where
  | GREEN
  | YELLOW
  | GRAY
deriving DecidableEq, Repr

/-- A feedback pattern: an ordered sequence of feedback symbols. -/
abbrev Hint := List HintPiece

/-- The constant `ALL_GREEN = (GREEN, GREEN, GREEN, GREEN, GREEN)` of the
source: note that it is hardcoded to length five. -/
def ALL_GREEN : Hint := [.GREEN, .GREEN, .GREEN, .GREEN, .GREEN]

/-- Python exceptions raised by the embedded code: `ValueError('Word lengths
must match')` in `hint`, `AssertionError` for the two `assert` statements in
`expected_guesses_after`, `ValueError` of `min` on an empty sequence,
`ZeroDivisionError` of `Fraction(_, 0)`, and fuel exhaustion (the embedding
of unbounded recursion depth). -/
inductive WordleError where
  | lengthMismatch
  | assertionFailed
  | minOfEmpty
  | zeroDivision
  | outOfFuel
deriving DecidableEq, Repr

/-- The multiset `collections.Counter(actual)` of letter counts, as a total
function defaulting to `0` on absent keys, exactly like a `Counter`. -/
def counter (w : List Char) : Char → Int :=
  fun c => (w.count c : Int)

/-- The statement `counts[c] -= 1` on a `Counter`. -/
def decrement (f : Char → Int) (c : Char) : Char → Int :=
  fun x => if x = c then f x - 1 else f x

/-- First pass of `hint`: for each position where `actual[i] == guess[i]`,
decrement that letter's count. -/
def exactPass : List (Char × Char) → (Char → Int) → Char → Int
  | [], f => f
  | (ac, gc) :: rest, f => exactPass rest (if ac = gc then decrement f ac else f)

/-- Second pass of `hint`: emit `GREEN` at exact matches, else `YELLOW`
(consuming one unit of the letter's remaining count) when the remaining count
of the guessed letter is positive, else `GRAY`. -/
def secondPass : List (Char × Char) → (Char → Int) → List HintPiece
  | [], _ => []
  | (ac, gc) :: rest, f =>
    if ac = gc then .GREEN :: secondPass rest f
    else if f gc > 0 then .YELLOW :: secondPass rest (decrement f gc)
    else .GRAY :: secondPass rest f

/-- The feedback evaluator `hint(actual, guess)` of the source: raises
`ValueError` when lengths differ, otherwise runs the two passes over the
zipped letter pairs. -/
def hint (actual guess : String) : Except WordleError Hint :=
  if actual.length ≠ guess.length then .error .lengthMismatch
  else .ok (secondPass (actual.data.zip guess.data)
    (exactPass (actual.data.zip guess.data) (counter actual.data)))

/-- The named tuple `GuessWithExpectation(guess, expected_after)`; the
expectation is an exact rational, like Python's `Fraction`. -/
structure GuessWithExpectation where
  guess : String
  expected_after : ℚ
deriving DecidableEq, Repr

/-- The memo dictionary `Run._knowledge_states_seen`, keyed by the raw
ordered tuple of candidate words. -/
abbrev Memo := List (List String × GuessWithExpectation)

/-- Dictionary lookup `memo[possibilities]` (first matching key wins, which
together with fresh entries being consed at the front reproduces dict
update/lookup semantics). -/
def memoLookup : Memo → List String → Option GuessWithExpectation
  | [], _ => none
  | (k, v) :: rest, p => if k = p then some v else memoLookup rest p

/-- One step of `possibilities_by_hint`: append `w` to the bucket keyed `h`
(buckets keep insertion order; a new key goes to the end, like a Python
`defaultdict` preserving key insertion order). -/
def addToBucket : List (Hint × List String) → Hint → String → List (Hint × List String)
  | [], h, w => [(h, [w])]
  | (k, ws) :: rest, h, w =>
    if k = h then (k, ws ++ [w]) :: rest else (k, ws) :: addToBucket rest h w

/-- The loop of `possibilities_by_hint`, with the accumulated buckets. -/
def pbhAux : List String → String → List (Hint × List String) →
    Except WordleError (List (Hint × List String))
  | [], _, acc => .ok acc
  | actual :: rest, guess, acc =>
    match hint actual guess with
    | .error e => .error e
    | .ok h => pbhAux rest guess (addToBucket acc h actual)

/-- The partitioner `possibilities_by_hint(possibilities, guess)`: group the
candidates by their feedback against `guess`. -/
def possibilities_by_hint (possibilities : List String) (guess : String) :
    Except WordleError (List (Hint × List String)) :=
  pbhAux possibilities guess []

/-- The loop body of `expected_guesses_after` over the feedback buckets,
parameterized by the recursive `best_guess` call `bg`.  It returns the
`remaining_guesses_distribution` as a list of `(value, weight)` pairs in
bucket order (the Python `Counter` merges equal values, which changes
neither the weighted sum nor the total weight).  The two `assert`
statements of the source become `assertionFailed` errors. -/
def bucketsGo (bg : Memo → List String → Except WordleError (Memo × GuessWithExpectation)) :
    Memo → List (Hint × List String) → Except WordleError (Memo × List (ℚ × Nat))
  | memo, [] => .ok (memo, [])
  | memo, (h, sub) :: rest =>
    if sub.length = 0 then .error .assertionFailed
    else if h = ALL_GREEN then
      if sub.length = 1 then
        match bucketsGo bg memo rest with
        | .error e => .error e
        | .ok (memo1, ds) => .ok (memo1, ((0 : ℚ), 1) :: ds)
      else .error .assertionFailed
    else
      match bg memo sub with
      | .error e => .error e
      | .ok (memo1, g) =>
        match bucketsGo bg memo1 rest with
        | .error e => .error e
        | .ok (memo2, ds) => .ok (memo2, (g.expected_after + 1, sub.length) :: ds)

/-- The body of `expected_guesses_after(possibilities, guess)`, parameterized
by the recursive `best_guess` call `bg`: partition, score every bucket, and
return the exact weighted average
`Fraction(sum(k * v), sum(v))` over the distribution. -/
def egaGo (bg : Memo → List String → Except WordleError (Memo × GuessWithExpectation))
    (memo : Memo) (possibilities : List String) (guess : String) :
    Except WordleError (Memo × ℚ) :=
  match possibilities_by_hint possibilities guess with
  | .error e => .error e
  | .ok buckets =>
    match bucketsGo bg memo buckets with
    | .error e => .error e
    | .ok (memo1, dist) =>
      if (dist.map (fun d => d.2)).sum = 0 then .error .zeroDivision
      else .ok (memo1,
        (dist.map (fun d => d.1 * (d.2 : ℚ))).sum / ((dist.map (fun d => d.2)).sum : ℚ))

/-- The loop of `best_guess` that evaluates `expected_guesses_after` for
every guess in the candidate tuple, in order, building the `values` list. -/
def valuesGo (ega : Memo → String → Except WordleError (Memo × ℚ)) :
    Memo → List String → Except WordleError (Memo × List GuessWithExpectation)
  | memo, [] => .ok (memo, [])
  | memo, guess :: rest =>
    match ega memo guess with
    | .error e => .error e
    | .ok (memo1, e) =>
      match valuesGo ega memo1 rest with
      | .error e' => .error e'
      | .ok (memo2, vs) => .ok (memo2, ⟨guess, e⟩ :: vs)

/-- Python's `min(values, key=lambda g: g.expected_after)`: the first element
attaining the minimal key (the running best is replaced only on a strictly
smaller key). -/
def minByExpectedAfter (best : GuessWithExpectation) :
    List GuessWithExpectation → GuessWithExpectation
  | [] => best
  | v :: vs =>
    minByExpectedAfter (if v.expected_after < best.expected_after then v else best) vs

/-- The search engine `Run.best_guess(possibilities)`, with fuel bounding the
recursion depth and the memo threaded explicitly.  On a memo miss it scores
every candidate guess, takes the minimum by expectation, stores it under the
raw ordered tuple `possibilities`, and returns it. -/
def bestGuessF : Nat → Memo → List String →
    Except WordleError (Memo × GuessWithExpectation) :=
  Nat.rec
    (motive := fun _ => Memo → List String →
      Except WordleError (Memo × GuessWithExpectation))
    (fun _ _ => .error .outOfFuel)
    (fun _fuel bg memo possibilities =>
      match memoLookup memo possibilities with
      | some g => .ok (memo, g)
      | none =>
        match valuesGo (fun m guess => egaGo bg m possibilities guess)
            memo possibilities with
        | .error e => .error e
        | .ok (memo2, values) =>
          match values with
          | [] => .error .minOfEmpty
          | v :: vs =>
            .ok ((possibilities, minByExpectedAfter v vs) :: memo2,
              minByExpectedAfter v vs))

theorem bestGuessF_zero (m : Memo) (p : List String) :
    bestGuessF 0 m p = .error .outOfFuel := rfl

/-- The method `Run.expected_guesses_after(possibilities, guess)`, with the
recursive `best_guess` calls given the stated fuel. -/
def expectedGuessesAfterF (fuel : Nat) (memo : Memo) (possibilities : List String)
    (guess : String) : Except WordleError (Memo × ℚ) :=
  egaGo (bestGuessF fuel) memo possibilities guess

instance {ε : Type u} {α : Type v} [DecidableEq ε] [DecidableEq α] :
    DecidableEq (Except ε α)
  | .error e1, .error e2 =>
    if h : e1 = e2 then .isTrue (by rw [h]) else .isFalse (by simp [h])
  | .error _, .ok _ => .isFalse (by simp)
  | .ok _, .error _ => .isFalse (by simp)
  | .ok a1, .ok a2 =>
    if h : a1 = a2 then .isTrue (by rw [h]) else .isFalse (by simp [h])

theorem secondPass_length : ∀ (pairs : List (Char × Char)) (f : Char → Int),
    (secondPass pairs f).length = pairs.length
  | [], _ => rfl
  | (ac, gc) :: rest, f => by
    simp only [secondPass]
    by_cases h1 : ac = gc
    · simp [h1, secondPass_length rest]
    · by_cases h2 : f gc > 0 <;> simp [h1, h2, secondPass_length rest]

theorem secondPass_green_iff : ∀ (pairs : List (Char × Char)) (f : Char → Int) (i : Nat),
    ((secondPass pairs f)[i]? = some .GREEN ↔
      ∃ ac gc, pairs[i]? = some (ac, gc) ∧ ac = gc)
  | [], f, i => by simp [secondPass]
  | (ac, gc) :: rest, f, i => by
    match i with
    | 0 =>
      by_cases h1 : ac = gc
      · simp [secondPass, h1]
      · by_cases h2 : f gc > 0 <;>
          · simp [secondPass, h1, h2]
            exact fun h => h1 h.symm
    | i + 1 =>
      by_cases h1 : ac = gc
      · simpa [secondPass, h1] using secondPass_green_iff rest f i
      · by_cases h2 : f gc > 0
        · simpa [secondPass, h1, h2] using secondPass_green_iff rest (decrement f gc) i
        · simpa [secondPass, h1, h2] using secondPass_green_iff rest f i

theorem secondPass_zip_self : ∀ (l : List Char) (f : Char → Int),
    secondPass (l.zip l) f = List.replicate l.length .GREEN
  | [], _ => rfl
  | c :: rest, f => by
    show secondPass ((c, c) :: rest.zip rest) f = _
    simp only [secondPass, if_pos rfl]
    rw [secondPass_zip_self rest]
    rfl

theorem string_data_eq {a b : String} (h : a.data = b.data) : a = b := by
  cases a; cases b; exact congrArg String.mk h

/-- A successful `hint` implies the word lengths match and the feedback has
the common length. -/
theorem hint_ok_length {a b : String} {h : Hint} (hh : hint a b = .ok h) :
    a.length = b.length ∧ h.length = a.length := by
  unfold hint at hh
  split at hh
  · exact absurd hh (by simp)
  · next hlen =>
    have hab : a.length = b.length := not_not.mp hlen
    have hsp : h = secondPass (a.data.zip b.data)
        (exactPass (a.data.zip b.data) (counter a.data)) := by
      simpa using hh.symm
    refine ⟨hab, ?_⟩
    rw [hsp, secondPass_length, List.length_zip]
    have e1 : a.length = a.data.length := rfl
    have e2 : b.length = b.data.length := rfl
    omega

/-- A successful `hint` fixes the feedback to the two-pass computation. -/
theorem hint_ok_elim {a b : String} {h : Hint} (hh : hint a b = .ok h) :
    h = secondPass (a.data.zip b.data)
      (exactPass (a.data.zip b.data) (counter a.data)) := by
  unfold hint at hh
  split at hh
  · exact absurd hh (by simp)
  · simpa using hh.symm

/-- Guessing the secret itself yields all-green feedback of the word's
length. -/
theorem hint_self (a : String) : hint a a = .ok (List.replicate a.length .GREEN) := by
  unfold hint
  simp [secondPass_zip_self]

/-- Position `i` of a successful feedback is `GREEN` exactly when the two
words agree at position `i`. -/
theorem hint_green_pos {a b : String} {h : Hint} (hh : hint a b = .ok h) (i : Nat)
    (hi : i < a.length) : (h[i]? = some .GREEN ↔ a.data[i]? = b.data[i]?) := by
  obtain ⟨hab, _⟩ := hint_ok_length hh
  rw [hint_ok_elim hh, secondPass_green_iff]
  constructor
  · rintro ⟨ac, gc, hzip, rfl⟩
    rw [List.getElem?_zip_eq_some] at hzip
    rw [hzip.1, hzip.2]
  · intro heq
    have ha : a.data[i]? = some (a.data.get ⟨i, hi⟩) := List.getElem?_eq_getElem hi
    refine ⟨a.data.get ⟨i, hi⟩, a.data.get ⟨i, hi⟩, ?_, rfl⟩
    rw [List.getElem?_zip_eq_some]
    exact ⟨ha, heq ▸ ha⟩

/-- A successful feedback is the all-green pattern exactly when the secret
equals the guess. -/
theorem hint_replicate_green_iff {a b : String} {h : Hint} (hh : hint a b = .ok h) :
    (h = List.replicate a.length .GREEN ↔ a = b) := by
  obtain ⟨hab, hlen⟩ := hint_ok_length hh
  constructor
  · intro hrep
    refine string_data_eq (List.ext_getElem (by exact hab) ?_)
    intro i hia hib
    have hia' : i < a.length := hia
    have hg : h[i]? = some .GREEN := by
      rw [hrep, List.getElem?_replicate, if_pos hia']
    have hpos := (hint_green_pos hh i hia').mp hg
    rw [List.getElem?_eq_getElem hia, List.getElem?_eq_getElem hib] at hpos
    exact Option.some.inj hpos
  · rintro rfl
    have := hint_self a
    rw [this] at hh
    simpa using hh.symm

/-- A bucket key equal to `ALL_GREEN` forces the candidate to be the guess
itself (and the words to have length five). -/
theorem hint_ALL_GREEN_imp_eq {a b : String} (hh : hint a b = .ok ALL_GREEN) :
    a = b ∧ a.length = 5 := by
  obtain ⟨hab, hlen⟩ := hint_ok_length hh
  have h5 : a.length = 5 := by simpa [ALL_GREEN] using hlen.symm
  refine ⟨?_, h5⟩
  refine (hint_replicate_green_iff hh).mp ?_
  rw [h5]
  rfl

/-- For a length-five word, self-feedback is exactly `ALL_GREEN`. -/
theorem hint_self_ALL_GREEN {a : String} (h5 : a.length = 5) :
    hint a a = .ok ALL_GREEN := by
  rw [hint_self, h5]
  rfl

/-- The multiset union of the buckets: all bucket contents concatenated. -/
def bucketContents (buckets : List (Hint × List String)) : List String :=
  (buckets.map (fun b => b.2)).flatten

theorem bucketContents_nil : bucketContents [] = [] := rfl

theorem addToBucket_contents : ∀ (acc : List (Hint × List String)) (h : Hint) (w : String),
    (bucketContents (addToBucket acc h w)).Perm (bucketContents acc ++ [w])
  | [], h, w => by simp [addToBucket, bucketContents]
  | (k, ws) :: rest, h, w => by
    by_cases hk : k = h
    · simp only [addToBucket, if_pos hk, bucketContents, List.map_cons, List.flatten_cons]
      rw [List.append_assoc ws [w], List.append_assoc ws]
      exact List.Perm.append_left ws List.perm_append_comm
    · simp only [addToBucket, if_neg hk, bucketContents, List.map_cons, List.flatten_cons]
      rw [List.append_assoc ws]
      exact List.Perm.append_left ws (addToBucket_contents rest h w)

theorem pbhAux_contents : ∀ (rest : List String) (guess : String)
    (acc buckets : List (Hint × List String)), pbhAux rest guess acc = .ok buckets →
    (bucketContents buckets).Perm (bucketContents acc ++ rest)
  | [], _, acc, buckets, hok => by
    simp only [pbhAux, Except.ok.injEq] at hok
    simp [hok]
  | actual :: rest, guess, acc, buckets, hok => by
    simp only [pbhAux] at hok
    match hh : hint actual guess with
    | .error e => rw [hh] at hok; exact absurd hok (by simp)
    | .ok h =>
      rw [hh] at hok
      have h1 := pbhAux_contents rest guess _ buckets hok
      have h2 := List.Perm.append_right rest (addToBucket_contents acc h actual)
      simpa using h1.trans h2

/-- Partition invariant: the bucket contents are, as a multiset, exactly the
input candidate collection. -/
theorem possibilities_by_hint_perm {p : List String} {g : String}
    {buckets : List (Hint × List String)}
    (hok : possibilities_by_hint p g = .ok buckets) : (bucketContents buckets).Perm p := by
  have := pbhAux_contents p g [] buckets hok
  simpa [bucketContents_nil] using this

/-- Partition invariant: the bucket sizes sum to the number of candidates. -/
theorem possibilities_by_hint_sizes {p : List String} {g : String}
    {buckets : List (Hint × List String)}
    (hok : possibilities_by_hint p g = .ok buckets) :
    (buckets.map (fun b => b.2.length)).sum = p.length := by
  have hperm := possibilities_by_hint_perm hok
  have := hperm.length_eq
  simpa [bucketContents, List.length_flatten, Function.comp] using this

theorem addToBucket_keys (acc : List (Hint × List String)) (h : Hint) (w : String) :
    (addToBucket acc h w).map (fun b => b.1) =
      if h ∈ acc.map (fun b => b.1) then acc.map (fun b => b.1)
      else acc.map (fun b => b.1) ++ [h] := by
  induction acc with
  | nil => simp [addToBucket]
  | cons b rest ih =>
    obtain ⟨k, ws⟩ := b
    by_cases hk : k = h
    · simp [addToBucket, hk]
    · simp only [addToBucket, if_neg hk, List.map_cons, ih]
      have hne : ¬h = k := fun hh => hk hh.symm
      by_cases hmem : h ∈ rest.map (fun b => b.1) <;>
        simp [hmem, List.mem_cons, hne]

theorem addToBucket_keys_nodup {acc : List (Hint × List String)} {h : Hint} {w : String}
    (hnd : (acc.map (fun b => b.1)).Nodup) :
    ((addToBucket acc h w).map (fun b => b.1)).Nodup := by
  rw [addToBucket_keys]
  split
  · exact hnd
  · next hmem =>
    rw [← List.concat_eq_append]
    exact hnd.concat hmem

theorem pbhAux_keys_nodup : ∀ (rest : List String) (guess : String)
    (acc buckets : List (Hint × List String)),
    (acc.map (fun b => b.1)).Nodup → pbhAux rest guess acc = .ok buckets →
    (buckets.map (fun b => b.1)).Nodup
  | [], _, acc, buckets, hnd, hok => by
    simp only [pbhAux, Except.ok.injEq] at hok
    rw [← hok]
    exact hnd
  | actual :: rest, guess, acc, buckets, hnd, hok => by
    simp only [pbhAux] at hok
    match hh : hint actual guess with
    | .error e => rw [hh] at hok; exact absurd hok (by simp)
    | .ok h =>
      rw [hh] at hok
      exact pbhAux_keys_nodup rest guess _ buckets (addToBucket_keys_nodup hnd) hok

/-- Partition invariant: the feedback keys of the buckets are pairwise
distinct. -/
theorem possibilities_by_hint_keys_nodup {p : List String} {g : String}
    {buckets : List (Hint × List String)}
    (hok : possibilities_by_hint p g = .ok buckets) :
    (buckets.map (fun b => b.1)).Nodup :=
  pbhAux_keys_nodup p g [] buckets (by simp) hok

/-- Well-formedness of a bucket list for a guess `g`: every bucket is
non-empty and holds exactly the words whose feedback against `g` is the
bucket's key. -/
def BucketsWF (g : String) (buckets : List (Hint × List String)) : Prop :=
  ∀ b ∈ buckets, b.2 ≠ [] ∧ ∀ w ∈ b.2, hint w g = .ok b.1

theorem addToBucket_wf {g : String} {acc : List (Hint × List String)} {h : Hint} {w : String}
    (hwf : BucketsWF g acc) (hw : hint w g = .ok h) : BucketsWF g (addToBucket acc h w) := by
  induction acc with
  | nil =>
    intro b hb
    simp only [addToBucket, List.mem_singleton] at hb
    subst hb
    exact ⟨by simp, by simpa using hw⟩
  | cons b0 rest ih =>
    obtain ⟨k, ws⟩ := b0
    by_cases hk : k = h
    · intro b hb
      simp only [addToBucket, if_pos hk, List.mem_cons] at hb
      rcases hb with hb | hb
      · subst hb
        refine ⟨by simp, ?_⟩
        intro x hx
        simp only [List.mem_append, List.mem_singleton] at hx
        rcases hx with hx | hx
        · exact (hwf (k, ws) (by simp)).2 x hx
        · subst hx
          rw [hw, hk]
      · exact hwf b (List.mem_cons_of_mem _ hb)
    · intro b hb
      simp only [addToBucket, if_neg hk, List.mem_cons] at hb
      rcases hb with hb | hb
      · subst hb
        exact hwf (k, ws) (by simp)
      · exact ih (fun b' hb' => hwf b' (List.mem_cons_of_mem _ hb')) b hb

theorem pbhAux_wf : ∀ (rest : List String) (guess : String)
    (acc buckets : List (Hint × List String)),
    BucketsWF guess acc → pbhAux rest guess acc = .ok buckets → BucketsWF guess buckets
  | [], _, acc, buckets, hwf, hok => by
    simp only [pbhAux, Except.ok.injEq] at hok
    rw [← hok]
    exact hwf
  | actual :: rest, guess, acc, buckets, hwf, hok => by
    simp only [pbhAux] at hok
    match hh : hint actual guess with
    | .error e => rw [hh] at hok; exact absurd hok (by simp)
    | .ok h =>
      rw [hh] at hok
      exact pbhAux_wf rest guess _ buckets (addToBucket_wf hwf hh) hok

/-- Partition invariant: every produced bucket is non-empty and contains
exactly the words whose feedback is the bucket's key. -/
theorem possibilities_by_hint_wf {p : List String} {g : String}
    {buckets : List (Hint × List String)}
    (hok : possibilities_by_hint p g = .ok buckets) : BucketsWF g buckets :=
  pbhAux_wf p g [] buckets (fun b hb => absurd hb (by simp)) hok

/-- Each bucket's word list is a sublist of the concatenated contents. -/
theorem bucket_sublist_contents {buckets : List (Hint × List String)}
    {b : Hint × List String} (hb : b ∈ buckets) : b.2.Sublist (bucketContents buckets) :=
  List.sublist_flatten_of_mem (List.mem_map_of_mem (fun x => x.2) hb)

/-- For pairwise-distinct candidates, every bucket is duplicate-free and all
its words are candidates. -/
theorem bucket_nodup_subset {p : List String} {g : String}
    {buckets : List (Hint × List String)} (hnd : p.Nodup)
    (hok : possibilities_by_hint p g = .ok buckets) {b : Hint × List String}
    (hb : b ∈ buckets) : b.2.Nodup ∧ ∀ w ∈ b.2, w ∈ p := by
  have hperm := possibilities_by_hint_perm hok
  have hcnd : (bucketContents buckets).Nodup := hperm.nodup_iff.mpr hnd
  have hsub := bucket_sublist_contents hb
  exact ⟨hsub.nodup hcnd, fun w hw => hperm.subset (hsub.subset hw)⟩

theorem eq_singleton_of_all_eq {α : Type u} {g : α} :
    ∀ (l : List α), l ≠ [] → l.Nodup → (∀ x ∈ l, x = g) → l = [g]
  | [], hne, _, _ => absurd rfl hne
  | [x], _, _, hall => by rw [hall x (by simp)]
  | x :: y :: t, _, hnd, hall => by
    exfalso
    rw [List.nodup_cons] at hnd
    exact hnd.1 (by rw [hall x (by simp), hall y (by simp)]; simp)

/-- For pairwise-distinct candidates, a bucket keyed `ALL_GREEN` is exactly
the singleton of the guess. -/
theorem bucket_ALL_GREEN_eq {p : List String} {g : String}
    {buckets : List (Hint × List String)} (hnd : p.Nodup)
    (hok : possibilities_by_hint p g = .ok buckets) {sub : List String}
    (hb : (ALL_GREEN, sub) ∈ buckets) : sub = [g] := by
  have hwf := possibilities_by_hint_wf hok (ALL_GREEN, sub) hb
  have hall : ∀ w ∈ sub, w = g := by
    intro w hw
    exact (hint_ALL_GREEN_imp_eq (hwf.2 w hw)).1
  have hsnd : sub.Nodup := (bucket_nodup_subset hnd hok hb).1
  exact eq_singleton_of_all_eq sub hwf.1 hsnd hall

theorem bucketsGo_mono {bg bg' : Memo → List String → Except WordleError (Memo × GuessWithExpectation)}
    (hmono : ∀ m p r, bg m p = .ok r → bg' m p = .ok r) :
    ∀ (l : List (Hint × List String)) (m : Memo) (r),
      bucketsGo bg m l = .ok r → bucketsGo bg' m l = .ok r
  | [], _, _, hok => hok
  | (h, sub) :: rest, m, r, hok => by
    simp only [bucketsGo] at hok ⊢
    by_cases h0 : sub.length = 0
    · rw [if_pos h0] at hok
      exact absurd hok (by simp)
    · rw [if_neg h0] at hok ⊢
      by_cases hg : h = ALL_GREEN
      · rw [if_pos hg] at hok ⊢
        by_cases h1 : sub.length = 1
        · rw [if_pos h1] at hok ⊢
          match hrec : bucketsGo bg m rest with
          | .error e => rw [hrec] at hok; exact absurd hok (by simp)
          | .ok (m1, ds) =>
            simp only [hrec] at hok
            simp only [bucketsGo_mono hmono rest m (m1, ds) hrec]
            exact hok
        · rw [if_neg h1] at hok
          exact absurd hok (by simp)
      · rw [if_neg hg] at hok ⊢
        match hbg : bg m sub with
        | .error e => rw [hbg] at hok; exact absurd hok (by simp)
        | .ok (m1, g) =>
          simp only [hbg] at hok
          simp only [hmono m sub (m1, g) hbg]
          match hrec : bucketsGo bg m1 rest with
          | .error e => rw [hrec] at hok; exact absurd hok (by simp)
          | .ok (m2, ds) =>
            simp only [hrec] at hok
            simp only [bucketsGo_mono hmono rest m1 (m2, ds) hrec]
            exact hok

theorem egaGo_mono {bg bg' : Memo → List String → Except WordleError (Memo × GuessWithExpectation)}
    (hmono : ∀ m p r, bg m p = .ok r → bg' m p = .ok r)
    {m : Memo} {p : List String} {g : String} {r : Memo × ℚ}
    (hok : egaGo bg m p g = .ok r) : egaGo bg' m p g = .ok r := by
  unfold egaGo at hok ⊢
  match hpb : possibilities_by_hint p g with
  | .error e => rw [hpb] at hok; exact absurd hok (by simp)
  | .ok buckets =>
    simp only [hpb] at hok
    match hbk : bucketsGo bg m buckets with
    | .error e => rw [hbk] at hok; exact absurd hok (by simp)
    | .ok (m1, dist) =>
      simp only [hbk] at hok
      simp only [bucketsGo_mono hmono buckets m (m1, dist) hbk]
      exact hok

theorem valuesGo_mono {ega ega' : Memo → String → Except WordleError (Memo × ℚ)}
    (hmono : ∀ m g r, ega m g = .ok r → ega' m g = .ok r) :
    ∀ (l : List String) (m : Memo) (r),
      valuesGo ega m l = .ok r → valuesGo ega' m l = .ok r
  | [], _, _, hok => hok
  | guess :: rest, m, r, hok => by
    simp only [valuesGo] at hok ⊢
    match hv : ega m guess with
    | .error e => rw [hv] at hok; exact absurd hok (by simp)
    | .ok (m1, e) =>
      simp only [hv] at hok
      simp only [hmono m guess (m1, e) hv]
      match hrec : valuesGo ega m1 rest with
      | .error e' => rw [hrec] at hok; exact absurd hok (by simp)
      | .ok (m2, vs) =>
        simp only [hrec] at hok
        simp only [valuesGo_mono hmono rest m1 (m2, vs) hrec]
        exact hok

/-- The one-step unfolding of `bestGuessF` at a successor fuel value. -/
theorem bestGuessF_succ_eq (f : Nat) (m : Memo) (p : List String) :
    bestGuessF (f + 1) m p =
      match memoLookup m p with
      | some g => .ok (m, g)
      | none =>
        match valuesGo (fun m' guess => egaGo (bestGuessF f) m' p guess) m p with
        | .error e => .error e
        | .ok (m2, values) =>
          match values with
          | [] => .error .minOfEmpty
          | v :: vs =>
            .ok ((p, minByExpectedAfter v vs) :: m2, minByExpectedAfter v vs) := rfl

/-- Success of `best_guess` is preserved, with the same result, when one
more unit of recursion depth is allowed. -/
theorem bestGuessF_mono_succ :
    ∀ (f : Nat) (m : Memo) (p : List String) (r : Memo × GuessWithExpectation),
      bestGuessF f m p = .ok r → bestGuessF (f + 1) m p = .ok r
  | 0, _, _, _, hok => absurd hok (by simp [bestGuessF_zero])
  | f + 1, m, p, r, hok => by
    rw [bestGuessF_succ_eq] at hok ⊢
    match hlk : memoLookup m p with
    | some g => rw [hlk] at hok; exact hok
    | none =>
      simp only [hlk] at hok
      match hv : valuesGo (fun m' guess => egaGo (bestGuessF f) m' p guess) m p with
      | .error e => rw [hv] at hok; exact absurd hok (by simp)
      | .ok (m2, values) =>
        simp only [hv] at hok
        have hv' := valuesGo_mono
          (fun m' g r' hr => egaGo_mono (bestGuessF_mono_succ f) hr) p m (m2, values) hv
        simp only [hv']
        exact hok

/-- Success of `best_guess` is preserved, with the same result, by any
increase of the fuel. -/
theorem bestGuessF_mono {f f' : Nat} (hle : f ≤ f') {m : Memo} {p : List String}
    {r : Memo × GuessWithExpectation} (hok : bestGuessF f m p = .ok r) :
    bestGuessF f' m p = .ok r := by
  induction hle with
  | refl => exact hok
  | step _ ih => exact bestGuessF_mono_succ _ _ _ _ ih

/-- After a successful `best_guess` call, the resulting memo maps the raw
ordered candidate tuple, exactly as passed, to the returned evaluation. -/
theorem bestGuess_memo_after {f : Nat} {m : Memo} {p : List String} {m' : Memo}
    {r : GuessWithExpectation} (hok : bestGuessF f m p = .ok (m', r)) :
    memoLookup m' p = some r := by
  match f with
  | 0 => exact absurd hok (by simp [bestGuessF_zero])
  | f + 1 =>
    rw [bestGuessF_succ_eq] at hok
    match hlk : memoLookup m p with
    | some g =>
      simp only [hlk] at hok
      simp only [Except.ok.injEq, Prod.mk.injEq] at hok
      rw [← hok.1, ← hok.2]
      exact hlk
    | none =>
      simp only [hlk] at hok
      match hv : valuesGo (fun m' guess => egaGo (bestGuessF f) m' p guess) m p with
      | .error e => rw [hv] at hok; exact absurd hok (by simp)
      | .ok (m2, values) =>
        simp only [hv] at hok
        match values with
        | [] => exact absurd hok (by simp)
        | v :: vs =>
          simp only [Except.ok.injEq, Prod.mk.injEq] at hok
          rw [← hok.1, ← hok.2]
          simp [memoLookup]

/-- A repeated `best_guess` invocation on the same Run, with the identical
candidate tuple, is served from the memo with the identical result. -/
theorem bestGuess_repeat {f : Nat} {m : Memo} {p : List String} {m' : Memo}
    {r : GuessWithExpectation} (hok : bestGuessF f m p = .ok (m', r)) (f' : Nat) :
    bestGuessF (f' + 1) m' p = .ok (m', r) := by
  rw [bestGuessF_succ_eq, bestGuess_memo_after hok]

/-- Invariant on memo states: every cached expectation, multiplied by the
size of its key, is an integer (its denominator divides the key's size). -/
def MemoInv (m : Memo) : Prop :=
  ∀ e ∈ m, ∃ z : ℤ, e.2.expected_after * (e.1.length : ℚ) = (z : ℚ)

theorem memoInv_nil : MemoInv [] := fun e he => absurd he (by simp)

theorem memoLookup_inv : ∀ {m : Memo} {p : List String} {r : GuessWithExpectation},
    MemoInv m → memoLookup m p = some r →
    ∃ z : ℤ, r.expected_after * (p.length : ℚ) = (z : ℚ) := by
  intro m
  induction m with
  | nil => intro p r _ hlk; exact absurd hlk (by simp [memoLookup])
  | cons e rest ih =>
    intro p r hm hlk
    obtain ⟨k, v⟩ := e
    simp only [memoLookup] at hlk
    by_cases hk : k = p
    · rw [if_pos hk] at hlk
      obtain ⟨z, hz⟩ := hm (k, v) (by simp)
      exact ⟨z, by rw [← (Option.some.inj hlk), ← hk]; exact hz⟩
    · rw [if_neg hk] at hlk
      exact ih (fun e he => hm e (List.mem_cons_of_mem _ he)) hlk

/-- The property propagated through the recursion for the exact-arithmetic
claim: from a valid memo, a successful call keeps the memo valid and
returns an expectation whose denominator divides the candidate count. -/
def BGInvariant (bg : Memo → List String → Except WordleError (Memo × GuessWithExpectation)) :
    Prop :=
  ∀ m p m' r, MemoInv m → bg m p = .ok (m', r) →
    MemoInv m' ∧ ∃ z : ℤ, r.expected_after * (p.length : ℚ) = (z : ℚ)

theorem bucketsGo_inv {bg : Memo → List String → Except WordleError (Memo × GuessWithExpectation)}
    (hbg : BGInvariant bg) :
    ∀ (l : List (Hint × List String)) (m m' : Memo) (dist : List (ℚ × Nat)),
      MemoInv m → bucketsGo bg m l = .ok (m', dist) →
      MemoInv m' ∧ dist.map (fun d => d.2) = l.map (fun b => b.2.length) ∧
        ∀ d ∈ dist, ∃ z : ℤ, d.1 * (d.2 : ℚ) = (z : ℚ)
  | [], m, m', dist, hm, hok => by
    simp only [bucketsGo, Except.ok.injEq, Prod.mk.injEq] at hok
    obtain ⟨h1, h2⟩ := hok
    subst h1; subst h2
    exact ⟨hm, by simp, by simp⟩
  | (h, sub) :: rest, m, m', dist, hm, hok => by
    simp only [bucketsGo] at hok
    by_cases h0 : sub.length = 0
    · rw [if_pos h0] at hok
      exact absurd hok (by simp)
    · rw [if_neg h0] at hok
      by_cases hg : h = ALL_GREEN
      · rw [if_pos hg] at hok
        by_cases h1 : sub.length = 1
        · rw [if_pos h1] at hok
          match hrec : bucketsGo bg m rest with
          | .error e => rw [hrec] at hok; exact absurd hok (by simp)
          | .ok (m1, ds) =>
            simp only [hrec, Except.ok.injEq, Prod.mk.injEq] at hok
            obtain ⟨hm'eq, hdist⟩ := hok
            obtain ⟨hminv, hsizes, hvals⟩ := bucketsGo_inv hbg rest m m1 ds hm hrec
            subst hm'eq
            subst hdist
            refine ⟨hminv, ?_, ?_⟩
            · simp [hsizes, h1]
            · intro d hd
              rcases List.mem_cons.mp hd with hd | hd
              · exact ⟨0, by rw [hd]; simp⟩
              · exact hvals d hd
        · rw [if_neg h1] at hok
          exact absurd hok (by simp)
      · rw [if_neg hg] at hok
        match hbgr : bg m sub with
        | .error e => rw [hbgr] at hok; exact absurd hok (by simp)
        | .ok (m1, g) =>
          simp only [hbgr] at hok
          match hrec : bucketsGo bg m1 rest with
          | .error e => rw [hrec] at hok; exact absurd hok (by simp)
          | .ok (m2, ds) =>
            simp only [hrec, Except.ok.injEq, Prod.mk.injEq] at hok
            obtain ⟨hm'eq, hdist⟩ := hok
            obtain ⟨hm1inv, z, hz⟩ := hbg m sub m1 g hm hbgr
            obtain ⟨hm2inv, hsizes, hvals⟩ := bucketsGo_inv hbg rest m1 m2 ds hm1inv hrec
            subst hm'eq
            subst hdist
            refine ⟨hm2inv, by simp [hsizes], ?_⟩
            intro d hd
            rcases List.mem_cons.mp hd with hd | hd
            · refine ⟨z + sub.length, ?_⟩
              rw [hd]
              push_cast
              rw [add_mul, one_mul, hz]
            · exact hvals d hd

theorem sum_int_of_forall : ∀ (dist : List (ℚ × Nat)),
    (∀ d ∈ dist, ∃ z : ℤ, d.1 * (d.2 : ℚ) = (z : ℚ)) →
    ∃ z : ℤ, (dist.map (fun d => d.1 * (d.2 : ℚ))).sum = (z : ℚ)
  | [], _ => ⟨0, by simp⟩
  | d :: rest, hall => by
    obtain ⟨z1, hz1⟩ := hall d (by simp)
    obtain ⟨z2, hz2⟩ := sum_int_of_forall rest (fun d' hd' => hall d' (List.mem_cons_of_mem _ hd'))
    exact ⟨z1 + z2, by simp [hz1, hz2]⟩

theorem egaGo_inv {bg : Memo → List String → Except WordleError (Memo × GuessWithExpectation)}
    (hbg : BGInvariant bg) {m : Memo} {p : List String} {g : String} {m' : Memo} {q : ℚ}
    (hm : MemoInv m) (hok : egaGo bg m p g = .ok (m', q)) :
    MemoInv m' ∧ ∃ z : ℤ, q * (p.length : ℚ) = (z : ℚ) := by
  unfold egaGo at hok
  match hpb : possibilities_by_hint p g with
  | .error e => rw [hpb] at hok; exact absurd hok (by simp)
  | .ok buckets =>
    simp only [hpb] at hok
    match hbk : bucketsGo bg m buckets with
    | .error e => rw [hbk] at hok; exact absurd hok (by simp)
    | .ok (m1, dist) =>
      simp only [hbk] at hok
      obtain ⟨hm1inv, hsizes, hvals⟩ := bucketsGo_inv hbg buckets m m1 dist hm hbk
      by_cases hden : (dist.map (fun d => d.2)).sum = 0
      · rw [if_pos hden] at hok
        exact absurd hok (by simp)
      · rw [if_neg hden] at hok
        simp only [Except.ok.injEq, Prod.mk.injEq] at hok
        obtain ⟨hm'eq, hq⟩ := hok
        subst hm'eq
        obtain ⟨z, hz⟩ := sum_int_of_forall dist hvals
        have hw : (dist.map (fun d => d.2)).sum = p.length := by
          rw [hsizes]
          exact possibilities_by_hint_sizes hpb
        have hcast : (((dist.map (fun d => d.2)).sum : ℕ) : ℚ)
            = (dist.map (fun d => (d.2 : ℚ))).sum := by
          rw [Nat.cast_list_sum, List.map_map]
          rfl
        have hplq : ((p.length : ℕ) : ℚ) = (dist.map (fun d => (d.2 : ℚ))).sum := by
          rw [← hw, hcast]
        have hpl : (dist.map (fun d => (d.2 : ℚ))).sum ≠ 0 := by
          rw [← hcast]
          exact_mod_cast hden
        refine ⟨hm1inv, z, ?_⟩
        rw [← hq, hplq, div_mul_cancel₀ _ hpl, hz]

theorem valuesGo_inv {ega : Memo → String → Except WordleError (Memo × ℚ)} {L : Nat}
    (hega : ∀ m g m' q, MemoInv m → ega m g = .ok (m', q) →
      MemoInv m' ∧ ∃ z : ℤ, q * (L : ℚ) = (z : ℚ)) :
    ∀ (l : List String) (m m' : Memo) (vs : List GuessWithExpectation),
      MemoInv m → valuesGo ega m l = .ok (m', vs) →
      MemoInv m' ∧ ∀ v ∈ vs, ∃ z : ℤ, v.expected_after * (L : ℚ) = (z : ℚ)
  | [], m, m', vs, hm, hok => by
    simp only [valuesGo, Except.ok.injEq, Prod.mk.injEq] at hok
    obtain ⟨h1, h2⟩ := hok
    subst h1; subst h2
    exact ⟨hm, by simp⟩
  | guess :: rest, m, m', vs, hm, hok => by
    simp only [valuesGo] at hok
    match hv : ega m guess with
    | .error e => rw [hv] at hok; exact absurd hok (by simp)
    | .ok (m1, e) =>
      simp only [hv] at hok
      obtain ⟨hm1inv, z1, hz1⟩ := hega m guess m1 e hm hv
      match hrec : valuesGo ega m1 rest with
      | .error e' => rw [hrec] at hok; exact absurd hok (by simp)
      | .ok (m2, vs2) =>
        simp only [hrec, Except.ok.injEq, Prod.mk.injEq] at hok
        obtain ⟨hm'eq, hvs⟩ := hok
        obtain ⟨hm2inv, hvals⟩ := valuesGo_inv hega rest m1 m2 vs2 hm1inv hrec
        subst hm'eq
        subst hvs
        refine ⟨hm2inv, ?_⟩
        intro v hv'
        rcases List.mem_cons.mp hv' with hv' | hv'
        · exact ⟨z1, by rw [hv']; exact hz1⟩
        · exact hvals v hv'

theorem minByExpectedAfter_mem : ∀ (best : GuessWithExpectation)
    (l : List GuessWithExpectation),
    minByExpectedAfter best l = best ∨ minByExpectedAfter best l ∈ l
  | _, [] => .inl rfl
  | best, v :: vs => by
    simp only [minByExpectedAfter]
    rcases minByExpectedAfter_mem (if v.expected_after < best.expected_after then v else best)
        vs with h | h
    · rw [h]
      split
      · exact .inr (by simp)
      · exact .inl rfl
    · exact .inr (List.mem_cons_of_mem _ h)

theorem minByExpectedAfter_mem_cons (v : GuessWithExpectation)
    (vs : List GuessWithExpectation) : minByExpectedAfter v vs ∈ v :: vs := by
  rcases minByExpectedAfter_mem v vs with h | h
  · rw [h]; simp
  · exact List.mem_cons_of_mem _ h

/-- The search engine respects the exact-arithmetic invariant at every fuel
level. -/
theorem bestGuessF_inv : ∀ (f : Nat), BGInvariant (bestGuessF f)
  | 0 => fun _ _ _ _ _ hok => absurd hok (by simp [bestGuessF_zero])
  | f + 1 => by
    intro m p m' r hm hok
    rw [bestGuessF_succ_eq] at hok
    match hlk : memoLookup m p with
    | some g =>
      simp only [hlk, Except.ok.injEq, Prod.mk.injEq] at hok
      obtain ⟨hm'eq, hreq⟩ := hok
      subst hm'eq
      subst hreq
      exact ⟨hm, memoLookup_inv hm hlk⟩
    | none =>
      simp only [hlk] at hok
      match hv : valuesGo (fun m' guess => egaGo (bestGuessF f) m' p guess) m p with
      | .error e => rw [hv] at hok; exact absurd hok (by simp)
      | .ok (m2, values) =>
        simp only [hv] at hok
        have hval := valuesGo_inv (L := p.length)
          (fun mm gg mm' qq hmm hkk => egaGo_inv (bestGuessF_inv f) hmm hkk)
          p m m2 values hm hv
        match values with
        | [] => exact absurd hok (by simp)
        | v :: vs =>
          simp only [Except.ok.injEq, Prod.mk.injEq] at hok
          obtain ⟨hm'eq, hreq⟩ := hok
          have hbz := hval.2 (minByExpectedAfter v vs) (minByExpectedAfter_mem_cons v vs)
          refine ⟨?_, by rw [← hreq]; exact hbz⟩
          rw [← hm'eq]
          intro e he
          rcases List.mem_cons.mp he with he | he
          · rw [he]
            exact hbz
          · exact hval.1 e he

/-- An engine call never fails an assertion on duplicate-free candidates. -/
def NoAssert (bg : Memo → List String → Except WordleError (Memo × GuessWithExpectation)) :
    Prop :=
  ∀ m p, p.Nodup → bg m p ≠ .error .assertionFailed

theorem hint_error_eq {a b : String} {e : WordleError} (hh : hint a b = .error e) :
    e = .lengthMismatch := by
  unfold hint at hh
  split at hh
  · simpa using hh.symm
  · exact absurd hh (by simp)

theorem pbhAux_error_eq : ∀ {rest : List String} {guess : String}
    {acc : List (Hint × List String)} {e : WordleError},
    pbhAux rest guess acc = .error e → e = .lengthMismatch := by
  intro rest
  induction rest with
  | nil => intro guess acc e h; exact absurd h (by simp [pbhAux])
  | cons actual rest ih =>
    intro guess acc e h
    simp only [pbhAux] at h
    match hh : hint actual guess with
    | .error e' =>
      rw [hh] at h
      have : e' = e := by simpa using h
      rw [← this]
      exact hint_error_eq hh
    | .ok hnt =>
      rw [hh] at h
      exact ih h

theorem bucketsGo_noassert
    {bg : Memo → List String → Except WordleError (Memo × GuessWithExpectation)}
    (hbg : NoAssert bg) :
    ∀ (l : List (Hint × List String)),
      (∀ b ∈ l, b.2 ≠ [] ∧ (b.1 = ALL_GREEN → b.2.length = 1) ∧ b.2.Nodup) →
      ∀ m, bucketsGo bg m l ≠ .error .assertionFailed
  | [], _, m => by simp [bucketsGo]
  | (h, sub) :: rest, hfacts, m => by
    obtain ⟨hne, hg1, hnd⟩ := hfacts (h, sub) (by simp)
    have h0 : ¬sub.length = 0 := fun hh => hne (List.length_eq_zero.mp hh)
    intro hcontra
    simp only [bucketsGo, if_neg h0] at hcontra
    by_cases hgreen : h = ALL_GREEN
    · rw [if_pos hgreen, if_pos (hg1 hgreen)] at hcontra
      match hrec : bucketsGo bg m rest with
      | .error e =>
        simp only [hrec] at hcontra
        have he : e = .assertionFailed := by simpa using hcontra
        exact bucketsGo_noassert hbg rest
          (fun b hb => hfacts b (List.mem_cons_of_mem _ hb)) m (by rw [hrec, he])
      | .ok (m1, ds) =>
        simp only [hrec] at hcontra
        exact absurd hcontra (by simp)
    · rw [if_neg hgreen] at hcontra
      match hbgr : bg m sub with
      | .error e =>
        simp only [hbgr] at hcontra
        have he : e = .assertionFailed := by simpa using hcontra
        exact hbg m sub hnd (by rw [hbgr, he])
      | .ok (m1, g) =>
        simp only [hbgr] at hcontra
        match hrec : bucketsGo bg m1 rest with
        | .error e =>
          simp only [hrec] at hcontra
          have he : e = .assertionFailed := by simpa using hcontra
          exact bucketsGo_noassert hbg rest
            (fun b hb => hfacts b (List.mem_cons_of_mem _ hb)) m1 (by rw [hrec, he])
        | .ok (m2, ds) =>
          simp only [hrec] at hcontra
          exact absurd hcontra (by simp)

/-- The facts needed for the assertion guards, established for every bucket
that the partitioner produces from duplicate-free candidates. -/
theorem buckets_guard_facts {p : List String} {g : String}
    {buckets : List (Hint × List String)} (hnd : p.Nodup)
    (hok : possibilities_by_hint p g = .ok buckets) :
    ∀ b ∈ buckets, b.2 ≠ [] ∧ (b.1 = ALL_GREEN → b.2.length = 1) ∧ b.2.Nodup := by
  intro b hb
  have hwf := possibilities_by_hint_wf hok b hb
  refine ⟨hwf.1, ?_, (bucket_nodup_subset hnd hok hb).1⟩
  intro hg
  have hb' : (ALL_GREEN, b.2) ∈ buckets := by
    rw [← hg]
    exact hb
  rw [bucket_ALL_GREEN_eq hnd hok hb']
  rfl

theorem egaGo_noassert
    {bg : Memo → List String → Except WordleError (Memo × GuessWithExpectation)}
    (hbg : NoAssert bg) {p : List String} (hnd : p.Nodup) (g : String) (m : Memo) :
    egaGo bg m p g ≠ .error .assertionFailed := by
  intro hcontra
  unfold egaGo at hcontra
  match hpb : possibilities_by_hint p g with
  | .error e =>
    rw [hpb] at hcontra
    have he : e = .assertionFailed := by simpa using hcontra
    have := pbhAux_error_eq (hpb.symm ▸ rfl : pbhAux p g [] = .error e)
    rw [he] at this
    exact absurd this (by simp)
  | .ok buckets =>
    simp only [hpb] at hcontra
    match hbk : bucketsGo bg m buckets with
    | .error e =>
      simp only [hbk] at hcontra
      have he : e = .assertionFailed := by simpa using hcontra
      exact bucketsGo_noassert hbg buckets (buckets_guard_facts hnd hpb) m
        (by rw [hbk, he])
    | .ok (m1, dist) =>
      simp only [hbk] at hcontra
      by_cases hden : (dist.map (fun d => d.2)).sum = 0
      · rw [if_pos hden] at hcontra
        exact absurd hcontra (by simp)
      · rw [if_neg hden] at hcontra
        exact absurd hcontra (by simp)

theorem valuesGo_noassert {ega : Memo → String → Except WordleError (Memo × ℚ)}
    (hega : ∀ m g, ega m g ≠ .error .assertionFailed) :
    ∀ (l : List String) (m : Memo), valuesGo ega m l ≠ .error .assertionFailed
  | [], m => by simp [valuesGo]
  | guess :: rest, m => by
    intro hcontra
    simp only [valuesGo] at hcontra
    match hv : ega m guess with
    | .error e =>
      simp only [hv] at hcontra
      have he : e = .assertionFailed := by simpa using hcontra
      exact hega m guess (by rw [hv, he])
    | .ok (m1, e) =>
      simp only [hv] at hcontra
      match hrec : valuesGo ega m1 rest with
      | .error e' =>
        simp only [hrec] at hcontra
        have he : e' = .assertionFailed := by simpa using hcontra
        exact valuesGo_noassert hega rest m1 (by rw [hrec, he])
      | .ok (m2, vs) =>
        simp only [hrec] at hcontra
        exact absurd hcontra (by simp)

/-- At every fuel level, the engine never fails an assertion when the
candidate tuple is duplicate-free. -/
theorem bestGuessF_noassert : ∀ (f : Nat), NoAssert (bestGuessF f)
  | 0 => fun m p _ => by simp [bestGuessF_zero]
  | f + 1 => by
    intro m p hnd hcontra
    rw [bestGuessF_succ_eq] at hcontra
    match hlk : memoLookup m p with
    | some g =>
      simp only [hlk] at hcontra
      exact absurd hcontra (by simp)
    | none =>
      simp only [hlk] at hcontra
      match hv : valuesGo (fun m' guess => egaGo (bestGuessF f) m' p guess) m p with
      | .error e =>
        simp only [hv] at hcontra
        have he : e = .assertionFailed := by simpa using hcontra
        refine valuesGo_noassert ?_ p m (by rw [hv, he])
        intro m' g
        exact egaGo_noassert (bestGuessF_noassert f) hnd g m'
      | .ok (m2, values) =>
        simp only [hv] at hcontra
        match values with
        | [] => exact absurd hcontra (by simp)
        | v :: vs => exact absurd hcontra (by simp)

theorem hint_ok_of_length {a b : String} (h : a.length = b.length) :
    ∃ hh, hint a b = .ok hh := by
  unfold hint
  rw [if_neg (not_not_intro h)]
  exact ⟨_, rfl⟩

theorem pbhAux_ok : ∀ (rest : List String) (guess : String)
    (acc : List (Hint × List String)), (∀ w ∈ rest, w.length = guess.length) →
    ∃ buckets, pbhAux rest guess acc = .ok buckets
  | [], _, acc, _ => ⟨acc, rfl⟩
  | actual :: rest, guess, acc, hlen => by
    obtain ⟨hh, hok⟩ := hint_ok_of_length (hlen actual (by simp))
    simp only [pbhAux, hok]
    exact pbhAux_ok rest guess _ (fun w hw => hlen w (List.mem_cons_of_mem _ hw))

/-- The partitioner succeeds whenever all candidates have the guess's
length. -/
theorem possibilities_by_hint_ok {p : List String} {g : String}
    (hlen : ∀ w ∈ p, w.length = g.length) :
    ∃ buckets, possibilities_by_hint p g = .ok buckets :=
  pbhAux_ok p g [] hlen

theorem bucketsGo_sizes
    {bg : Memo → List String → Except WordleError (Memo × GuessWithExpectation)} :
    ∀ (l : List (Hint × List String)) (m m' : Memo) (dist : List (ℚ × Nat)),
      bucketsGo bg m l = .ok (m', dist) →
      dist.map (fun d => d.2) = l.map (fun b => b.2.length)
  | [], m, m', dist, hok => by
    simp only [bucketsGo, Except.ok.injEq, Prod.mk.injEq] at hok
    rw [← hok.2]
    simp
  | (h, sub) :: rest, m, m', dist, hok => by
    simp only [bucketsGo] at hok
    by_cases h0 : sub.length = 0
    · rw [if_pos h0] at hok
      exact absurd hok (by simp)
    · rw [if_neg h0] at hok
      by_cases hgreen : h = ALL_GREEN
      · rw [if_pos hgreen] at hok
        by_cases h1 : sub.length = 1
        · rw [if_pos h1] at hok
          match hrec : bucketsGo bg m rest with
          | .error e => rw [hrec] at hok; exact absurd hok (by simp)
          | .ok (m1, ds) =>
            simp only [hrec, Except.ok.injEq, Prod.mk.injEq] at hok
            rw [← hok.2]
            simp [bucketsGo_sizes rest m m1 ds hrec, h1]
        · rw [if_neg h1] at hok
          exact absurd hok (by simp)
      · rw [if_neg hgreen] at hok
        match hbgr : bg m sub with
        | .error e => rw [hbgr] at hok; exact absurd hok (by simp)
        | .ok (m1, g1) =>
          simp only [hbgr] at hok
          match hrec : bucketsGo bg m1 rest with
          | .error e => rw [hrec] at hok; exact absurd hok (by simp)
          | .ok (m2, ds) =>
            simp only [hrec, Except.ok.injEq, Prod.mk.injEq] at hok
            rw [← hok.2]
            simp [bucketsGo_sizes rest m1 m2 ds hrec]

/-- A bucket whose key is not `ALL_GREEN` misses the guess, so for a
length-five guess drawn from duplicate-free candidates it is strictly
smaller than the candidate set. -/
theorem bucket_not_green_size {p : List String} {g : String}
    {buckets : List (Hint × List String)} (_hnd : p.Nodup) (hg : g ∈ p)
    (hg5 : g.length = 5) (hok : possibilities_by_hint p g = .ok buckets)
    {h : Hint} {sub : List String} (hb : (h, sub) ∈ buckets)
    (hgreen : h ≠ ALL_GREEN) : sub.length + 1 ≤ p.length := by
  have hgnot : g ∉ sub := by
    intro hgsub
    have hhg := (possibilities_by_hint_wf hok (h, sub) hb).2 g hgsub
    rw [hint_self_ALL_GREEN hg5] at hhg
    exact hgreen (Except.ok.inj hhg).symm
  have hmem : sub ∈ buckets.map (fun b => b.2) := List.mem_map_of_mem _ hb
  obtain ⟨L1, L2, hL⟩ := List.append_of_mem hmem
  have hflat : bucketContents buckets = L1.flatten ++ (sub ++ L2.flatten) := by
    rw [bucketContents, hL]
    simp [List.flatten_append, List.flatten_cons]
  have hperm := possibilities_by_hint_perm hok
  have hlen : L1.flatten.length + (sub.length + L2.flatten.length) = p.length := by
    have hpl := hperm.length_eq
    rw [hflat] at hpl
    simpa using hpl
  have hgmem : g ∈ L1.flatten ++ (sub ++ L2.flatten) := by
    rw [← hflat]
    exact hperm.mem_iff.mpr hg
  rcases List.mem_append.mp hgmem with h1 | h12
  · have := List.length_pos_of_mem h1
    omega
  · rcases List.mem_append.mp h12 with h2 | h3
    · exact absurd h2 hgnot
    · have := List.length_pos_of_mem h3
      omega

theorem bucketsGo_ok
    {bg : Memo → List String → Except WordleError (Memo × GuessWithExpectation)} :
    ∀ (l : List (Hint × List String)),
      (∀ b ∈ l, b.2 ≠ [] ∧ (b.1 = ALL_GREEN → b.2.length = 1) ∧
        (b.1 ≠ ALL_GREEN → ∀ m, ∃ r, bg m b.2 = .ok r)) →
      ∀ m, ∃ r, bucketsGo bg m l = .ok r
  | [], _, m => ⟨(m, []), rfl⟩
  | (h, sub) :: rest, hfacts, m => by
    obtain ⟨hne, hg1, hrec_ok⟩ := hfacts (h, sub) (by simp)
    have h0 : ¬sub.length = 0 := fun hh => hne (List.length_eq_zero.mp hh)
    by_cases hgreen : h = ALL_GREEN
    · obtain ⟨⟨m1, ds⟩, hrec⟩ :=
        bucketsGo_ok rest (fun b hb => hfacts b (List.mem_cons_of_mem _ hb)) m
      exact ⟨(m1, ((0 : ℚ), 1) :: ds), by
        simp only [bucketsGo, if_neg h0, if_pos hgreen, if_pos (hg1 hgreen), hrec]⟩
    · obtain ⟨⟨m1, g1⟩, hbgr⟩ := hrec_ok hgreen m
      obtain ⟨⟨m2, ds⟩, hrec⟩ :=
        bucketsGo_ok rest (fun b hb => hfacts b (List.mem_cons_of_mem _ hb)) m1
      exact ⟨(m2, (g1.expected_after + 1, sub.length) :: ds), by
        simp only [bucketsGo, if_neg h0, if_neg hgreen, hbgr, hrec]⟩

theorem valuesGo_ok {ega : Memo → String → Except WordleError (Memo × ℚ)} :
    ∀ (l : List String), (∀ g ∈ l, ∀ m, ∃ r, ega m g = .ok r) →
    ∀ m, ∃ m' vs, valuesGo ega m l = .ok (m', vs) ∧ vs.length = l.length
  | [], _, m => ⟨m, [], rfl, rfl⟩
  | guess :: rest, hall, m => by
    obtain ⟨⟨m1, e⟩, hv⟩ := hall guess (by simp) m
    obtain ⟨m2, vs, hrec, hlen⟩ :=
      valuesGo_ok rest (fun g hg m' => hall g (List.mem_cons_of_mem _ hg) m') m1
    refine ⟨m2, ⟨guess, e⟩ :: vs, ?_, by simp [hlen]⟩
    simp only [valuesGo, hv, hrec]

theorem egaGo_ok {bg : Memo → List String → Except WordleError (Memo × GuessWithExpectation)}
    {p : List String} {g : String}
    (hbg : ∀ b m, b ≠ [] → b.Nodup → (∀ w ∈ b, w.length = 5) →
      b.length + 1 ≤ p.length → ∃ r, bg m b = .ok r)
    (hne : p ≠ []) (hnd : p.Nodup) (hlen5 : ∀ w ∈ p, w.length = 5) (hg : g ∈ p)
    (m : Memo) : ∃ r, egaGo bg m p g = .ok r := by
  obtain ⟨buckets, hpb⟩ := possibilities_by_hint_ok
    (p := p) (g := g) (fun w hw => by rw [hlen5 w hw, hlen5 g hg])
  have hfacts : ∀ b ∈ buckets, b.2 ≠ [] ∧ (b.1 = ALL_GREEN → b.2.length = 1) ∧
      (b.1 ≠ ALL_GREEN → ∀ m', ∃ r, bg m' b.2 = .ok r) := by
    intro b hb
    obtain ⟨hbne, hbg1, hbnd⟩ := buckets_guard_facts hnd hpb b hb
    refine ⟨hbne, hbg1, ?_⟩
    intro hgreen m'
    have hb' : (b.1, b.2) ∈ buckets := by simpa using hb
    have hsize := bucket_not_green_size hnd hg (hlen5 g hg) hpb hb' hgreen
    have hblen : ∀ w ∈ b.2, w.length = 5 :=
      fun w hw => hlen5 w ((bucket_nodup_subset hnd hpb hb).2 w hw)
    exact hbg b.2 m' hbne hbnd hblen hsize
  obtain ⟨⟨m1, dist⟩, hbk⟩ := bucketsGo_ok buckets hfacts m
  have hsizes := bucketsGo_sizes buckets m m1 dist hbk
  have hden : (dist.map (fun d => d.2)).sum = p.length := by
    rw [hsizes]
    exact possibilities_by_hint_sizes hpb
  have hpne : p.length ≠ 0 := fun hh => hne (List.length_eq_zero.mp hh)
  refine ⟨(m1, (dist.map (fun d => d.1 * (d.2 : ℚ))).sum /
    ((dist.map (fun d => d.2)).sum : ℚ)), ?_⟩
  unfold egaGo
  simp only [hpb, hbk, if_neg (show ¬(dist.map (fun d => d.2)).sum = 0 by
    rw [hden]; exact hpne)]

/-- Termination of `best_guess` for length-five, duplicate-free, non-empty
candidate tuples: fuel equal to the number of candidates suffices, from any
memo state.  Each recursive call is on a bucket that misses the guess, so
the candidate count strictly decreases. -/
theorem bestGuessF_ok_of_le : ∀ (n : Nat) (p : List String) (m : Memo),
    p.length ≤ n → p ≠ [] → p.Nodup → (∀ w ∈ p, w.length = 5) →
    ∃ r, bestGuessF n m p = .ok r
  | 0, p, _, hle, hne, _, _ => by
    exfalso
    have := List.length_pos.mpr hne
    omega
  | n + 1, p, m, hle, hne, hnd, hlen5 => by
    match hlk : memoLookup m p with
    | some g => exact ⟨(m, g), by rw [bestGuessF_succ_eq]; simp only [hlk]⟩
    | none =>
      have hbg : ∀ b m', b ≠ [] → b.Nodup → (∀ w ∈ b, w.length = 5) →
          b.length + 1 ≤ p.length → ∃ r, bestGuessF n m' b = .ok r := by
        intro b m' hbne hbnd hblen hbsize
        exact bestGuessF_ok_of_le n b m' (by omega) hbne hbnd hblen
      have hega : ∀ g ∈ p, ∀ m', ∃ r,
          (fun mm guess => egaGo (bestGuessF n) mm p guess) m' g = .ok r := by
        intro g hg m'
        exact egaGo_ok hbg hne hnd hlen5 hg m'
      obtain ⟨m2, vs, hv, hlenv⟩ := valuesGo_ok p hega m
      match vs, hlenv with
      | [], hlenv => exact absurd hlenv.symm (fun hh => hne (List.length_eq_zero.mp hh))
      | v :: vs', _ =>
        exact ⟨((p, minByExpectedAfter v vs') :: m2, minByExpectedAfter v vs'),
          by rw [bestGuessF_succ_eq]; simp only [hlk, hv]⟩

theorem egaGo_abcd_err
    {bg : Memo → List String → Except WordleError (Memo × GuessWithExpectation)}
    (hbg : bg [] ["abcd"] = .error .outOfFuel) :
    egaGo bg [] ["abcd"] "abcd" = .error .outOfFuel := by
  unfold egaGo
  have hpb : possibilities_by_hint ["abcd"] "abcd"
      = .ok [([.GREEN, .GREEN, .GREEN, .GREEN], ["abcd"])] := rfl
  simp only [hpb, bucketsGo]
  rw [if_neg (by decide), if_neg (by decide)]
  simp only [hbg]

theorem egaGo_abcd_dcba_err
    {bg : Memo → List String → Except WordleError (Memo × GuessWithExpectation)}
    (hbg : bg [] ["abcd"] = .error .outOfFuel) :
    egaGo bg [] ["abcd", "dcba"] "abcd" = .error .outOfFuel := by
  unfold egaGo
  have hpb : possibilities_by_hint ["abcd", "dcba"] "abcd"
      = .ok [([.GREEN, .GREEN, .GREEN, .GREEN], ["abcd"]),
          ([.YELLOW, .YELLOW, .YELLOW, .YELLOW], ["dcba"])] := rfl
  simp only [hpb, bucketsGo]
  rw [if_neg (by decide), if_neg (by decide)]
  simp only [hbg]

/-- The singleton 4-letter candidate tuple runs out of any amount of fuel:
`ALL_GREEN` has five symbols, so the all-green 4-letter bucket is not
recognized and `best_guess` recurses on the unshrunk singleton forever. -/
theorem bestGuessF_abcd : ∀ (f : Nat), bestGuessF f [] ["abcd"] = .error .outOfFuel
  | 0 => rfl
  | f + 1 => by
    rw [bestGuessF_succ_eq]
    have hlk : memoLookup [] ["abcd"] = none := rfl
    simp only [hlk, valuesGo, egaGo_abcd_err (bestGuessF_abcd f)]

theorem bestGuessF_abcd_dcba : ∀ (f : Nat),
    bestGuessF f [] ["abcd", "dcba"] = .error .outOfFuel
  | 0 => rfl
  | f + 1 => by
    rw [bestGuessF_succ_eq]
    have hlk : memoLookup [] ["abcd", "dcba"] = none := rfl
    simp only [hlk, valuesGo, egaGo_abcd_dcba_err (bestGuessF_abcd f)]

/-- Nontermination of `best_guess` in the embedding: the call exhausts every
recursion-depth budget when started on a fresh run. -/
def bestGuessDiverges (p : List String) : Prop :=
  ∀ fuel, bestGuessF fuel [] p = .error .outOfFuel

/-- Nontermination of `expected_guesses_after` in the embedding: the call
exhausts every recursion-depth budget when started on a fresh run, so in
particular it never returns any value. -/
def egaDiverges (p : List String) (g : String) : Prop :=
  ∀ fuel, expectedGuessesAfterF fuel [] p g = .error .outOfFuel

theorem bucketsGo_nil
    {bg : Memo → List String → Except WordleError (Memo × GuessWithExpectation)}
    {m : Memo} : bucketsGo bg m [] = .ok (m, []) := rfl

theorem bucketsGo_cons_green
    {bg : Memo → List String → Except WordleError (Memo × GuessWithExpectation)}
    {m : Memo} {h : Hint} {sub : List String} {rest : List (Hint × List String)}
    {m1 : Memo} {ds : List (ℚ × Nat)} (hlen : sub.length = 1) (hg : h = ALL_GREEN)
    (hrec : bucketsGo bg m rest = .ok (m1, ds)) :
    bucketsGo bg m ((h, sub) :: rest) = .ok (m1, ((0 : ℚ), 1) :: ds) := by
  simp only [bucketsGo, if_neg (show ¬sub.length = 0 by omega), if_pos hg,
    if_pos hlen, hrec]

theorem bucketsGo_cons_other
    {bg : Memo → List String → Except WordleError (Memo × GuessWithExpectation)}
    {m : Memo} {h : Hint} {sub : List String} {rest : List (Hint × List String)}
    {m1 : Memo} {g : GuessWithExpectation} {m2 : Memo} {ds : List (ℚ × Nat)}
    (h0 : ¬sub.length = 0) (hg : ¬h = ALL_GREEN) (hbg : bg m sub = .ok (m1, g))
    (hrec : bucketsGo bg m1 rest = .ok (m2, ds)) :
    bucketsGo bg m ((h, sub) :: rest)
      = .ok (m2, (g.expected_after + 1, sub.length) :: ds) := by
  simp only [bucketsGo, if_neg h0, if_neg hg, hbg, hrec]

theorem valuesGo_nil {ega : Memo → String → Except WordleError (Memo × ℚ)} {m : Memo} :
    valuesGo ega m [] = .ok (m, []) := rfl

theorem valuesGo_cons {ega : Memo → String → Except WordleError (Memo × ℚ)}
    {m : Memo} {guess : String} {rest : List String} {m1 : Memo} {e : ℚ}
    {m2 : Memo} {vs : List GuessWithExpectation} (hv : ega m guess = .ok (m1, e))
    (hrec : valuesGo ega m1 rest = .ok (m2, vs)) :
    valuesGo ega m (guess :: rest) = .ok (m2, ⟨guess, e⟩ :: vs) := by
  simp only [valuesGo, hv, hrec]

theorem egaGo_eval
    {bg : Memo → List String → Except WordleError (Memo × GuessWithExpectation)}
    {m : Memo} {p : List String} {g : String} {buckets : List (Hint × List String)}
    {m1 : Memo} {dist : List (ℚ × Nat)}
    (hpb : possibilities_by_hint p g = .ok buckets)
    (hbk : bucketsGo bg m buckets = .ok (m1, dist))
    (hden : ¬(dist.map (fun d => d.2)).sum = 0) :
    egaGo bg m p g = .ok (m1,
      (dist.map (fun d => d.1 * (d.2 : ℚ))).sum / ((dist.map (fun d => d.2)).sum : ℚ)) := by
  unfold egaGo
  simp only [hpb, hbk, if_neg hden]

theorem bestGuessF_succ_hit {f : Nat} {m : Memo} {p : List String}
    {g : GuessWithExpectation} (hlk : memoLookup m p = some g) :
    bestGuessF (f + 1) m p = .ok (m, g) := by
  rw [bestGuessF_succ_eq]
  simp only [hlk]

theorem bestGuessF_succ_eval {f : Nat} {m : Memo} {p : List String} {m2 : Memo}
    {v : GuessWithExpectation} {vs : List GuessWithExpectation}
    (hlk : memoLookup m p = none)
    (hv : valuesGo (fun mm guess => egaGo (bestGuessF f) mm p guess) m p
      = .ok (m2, v :: vs)) :
    bestGuessF (f + 1) m p
      = .ok ((p, minByExpectedAfter v vs) :: m2, minByExpectedAfter v vs) := by
  rw [bestGuessF_succ_eq]
  simp only [hlk, hv]

/-- Base-case behaviour for length-five words: a fresh singleton candidate
tuple is answered with that word and expectation `0`, and the memo records
it under the singleton tuple. -/
theorem best_guess_singleton_five {w : String} (h5 : w.length = 5) {m : Memo}
    (hms : memoLookup m [w] = none) :
    bestGuessF 1 m [w] = .ok (([w], ⟨w, 0⟩) :: m, ⟨w, 0⟩) := by
  have hpb : possibilities_by_hint [w] w = .ok [(ALL_GREEN, [w])] := by
    simp only [possibilities_by_hint, pbhAux, hint_self_ALL_GREEN h5, addToBucket]
  have hbk : bucketsGo (bestGuessF 0) m [(ALL_GREEN, [w])] = .ok (m, [((0 : ℚ), 1)]) :=
    bucketsGo_cons_green rfl rfl bucketsGo_nil
  have hega : egaGo (bestGuessF 0) m [w] w = .ok (m, 0) := by
    rw [egaGo_eval hpb hbk (by decide)]
    simp only [List.map_cons, List.map_nil, List.sum_cons, List.sum_nil,
      Except.ok.injEq, Prod.mk.injEq]
    norm_num
  have hvals : valuesGo (fun mm guess => egaGo (bestGuessF 0) mm [w] guess) m [w]
      = .ok (m, [⟨w, 0⟩]) := valuesGo_cons hega valuesGo_nil
  exact bestGuessF_succ_eval hms hvals

theorem ega_pair_1 : egaGo (bestGuessF 1) [] ["abcde", "eabcd"] "abcde"
    = .ok ([(["eabcd"], ⟨"eabcd", 0⟩)], (1/2 : ℚ)) := by
  have hb1 : bestGuessF 1 [] ["eabcd"]
      = .ok ([(["eabcd"], ⟨"eabcd", 0⟩)], ⟨"eabcd", 0⟩) :=
    best_guess_singleton_five (by decide) rfl
  have hpb : possibilities_by_hint ["abcde", "eabcd"] "abcde"
      = .ok [(ALL_GREEN, ["abcde"]),
          ([.YELLOW, .YELLOW, .YELLOW, .YELLOW, .YELLOW], ["eabcd"])] := by decide
  have hbk : bucketsGo (bestGuessF 1) [] [(ALL_GREEN, ["abcde"]),
        ([.YELLOW, .YELLOW, .YELLOW, .YELLOW, .YELLOW], ["eabcd"])]
      = .ok ([(["eabcd"], ⟨"eabcd", 0⟩)], [((0 : ℚ), 1), ((0 : ℚ) + 1, 1)]) :=
    bucketsGo_cons_green rfl rfl
      (bucketsGo_cons_other (by decide) (by decide) hb1 bucketsGo_nil)
  rw [egaGo_eval hpb hbk (by decide)]
  simp only [List.map_cons, List.map_nil, List.sum_cons, List.sum_nil,
    Except.ok.injEq, Prod.mk.injEq]
  norm_num

theorem ega_pair_2 : egaGo (bestGuessF 1) [(["eabcd"], ⟨"eabcd", 0⟩)]
    ["abcde", "eabcd"] "eabcd"
    = .ok ([(["abcde"], ⟨"abcde", 0⟩), (["eabcd"], ⟨"eabcd", 0⟩)], (1/2 : ℚ)) := by
  have hb1 : bestGuessF 1 [(["eabcd"], ⟨"eabcd", 0⟩)] ["abcde"]
      = .ok ([(["abcde"], ⟨"abcde", 0⟩), (["eabcd"], ⟨"eabcd", 0⟩)], ⟨"abcde", 0⟩) :=
    best_guess_singleton_five (by decide) (by decide)
  have hpb : possibilities_by_hint ["abcde", "eabcd"] "eabcd"
      = .ok [([.YELLOW, .YELLOW, .YELLOW, .YELLOW, .YELLOW], ["abcde"]),
          (ALL_GREEN, ["eabcd"])] := by decide
  have hbk : bucketsGo (bestGuessF 1) [(["eabcd"], ⟨"eabcd", 0⟩)]
        [([.YELLOW, .YELLOW, .YELLOW, .YELLOW, .YELLOW], ["abcde"]),
          (ALL_GREEN, ["eabcd"])]
      = .ok ([(["abcde"], ⟨"abcde", 0⟩), (["eabcd"], ⟨"eabcd", 0⟩)],
          [((0 : ℚ) + 1, 1), ((0 : ℚ), 1)]) :=
    bucketsGo_cons_other (by decide) (by decide) hb1
      (bucketsGo_cons_green rfl rfl bucketsGo_nil)
  rw [egaGo_eval hpb hbk (by decide)]
  simp only [List.map_cons, List.map_nil, List.sum_cons, List.sum_nil,
    Except.ok.injEq, Prod.mk.injEq]
  norm_num

/-- The full engine run on the tuple `("abcde", "eabcd")`: both guesses tie
at expectation 1/2 and the first enumerated guess wins. -/
theorem run_pair_1 : bestGuessF 2 [] ["abcde", "eabcd"]
    = .ok ([(["abcde", "eabcd"], ⟨"abcde", 1/2⟩), (["abcde"], ⟨"abcde", 0⟩),
        (["eabcd"], ⟨"eabcd", 0⟩)], ⟨"abcde", 1/2⟩) := by
  have hvals : valuesGo
      (fun mm guess => egaGo (bestGuessF 1) mm ["abcde", "eabcd"] guess) []
      ["abcde", "eabcd"]
      = .ok ([(["abcde"], ⟨"abcde", 0⟩), (["eabcd"], ⟨"eabcd", 0⟩)],
          [⟨"abcde", (1/2 : ℚ)⟩, ⟨"eabcd", (1/2 : ℚ)⟩]) :=
    valuesGo_cons ega_pair_1 (valuesGo_cons ega_pair_2 valuesGo_nil)
  have h2 := bestGuessF_succ_eval
    (show memoLookup [] ["abcde", "eabcd"] = none from rfl) hvals
  have hbest : minByExpectedAfter ⟨"abcde", (1/2 : ℚ)⟩ [⟨"eabcd", (1/2 : ℚ)⟩]
      = ⟨"abcde", (1/2 : ℚ)⟩ := by
    simp only [minByExpectedAfter]
    rw [if_neg (by simp)]
  rw [hbest] at h2
  exact h2

theorem ega_pair_1' : egaGo (bestGuessF 1) [] ["eabcd", "abcde"] "eabcd"
    = .ok ([(["abcde"], ⟨"abcde", 0⟩)], (1/2 : ℚ)) := by
  have hb1 : bestGuessF 1 [] ["abcde"]
      = .ok ([(["abcde"], ⟨"abcde", 0⟩)], ⟨"abcde", 0⟩) :=
    best_guess_singleton_five (by decide) rfl
  have hpb : possibilities_by_hint ["eabcd", "abcde"] "eabcd"
      = .ok [(ALL_GREEN, ["eabcd"]),
          ([.YELLOW, .YELLOW, .YELLOW, .YELLOW, .YELLOW], ["abcde"])] := by decide
  have hbk : bucketsGo (bestGuessF 1) [] [(ALL_GREEN, ["eabcd"]),
        ([.YELLOW, .YELLOW, .YELLOW, .YELLOW, .YELLOW], ["abcde"])]
      = .ok ([(["abcde"], ⟨"abcde", 0⟩)], [((0 : ℚ), 1), ((0 : ℚ) + 1, 1)]) :=
    bucketsGo_cons_green rfl rfl
      (bucketsGo_cons_other (by decide) (by decide) hb1 bucketsGo_nil)
  rw [egaGo_eval hpb hbk (by decide)]
  simp only [List.map_cons, List.map_nil, List.sum_cons, List.sum_nil,
    Except.ok.injEq, Prod.mk.injEq]
  norm_num

theorem ega_pair_2' : egaGo (bestGuessF 1) [(["abcde"], ⟨"abcde", 0⟩)]
    ["eabcd", "abcde"] "abcde"
    = .ok ([(["eabcd"], ⟨"eabcd", 0⟩), (["abcde"], ⟨"abcde", 0⟩)], (1/2 : ℚ)) := by
  have hb1 : bestGuessF 1 [(["abcde"], ⟨"abcde", 0⟩)] ["eabcd"]
      = .ok ([(["eabcd"], ⟨"eabcd", 0⟩), (["abcde"], ⟨"abcde", 0⟩)], ⟨"eabcd", 0⟩) :=
    best_guess_singleton_five (by decide) (by decide)
  have hpb : possibilities_by_hint ["eabcd", "abcde"] "abcde"
      = .ok [([.YELLOW, .YELLOW, .YELLOW, .YELLOW, .YELLOW], ["eabcd"]),
          (ALL_GREEN, ["abcde"])] := by decide
  have hbk : bucketsGo (bestGuessF 1) [(["abcde"], ⟨"abcde", 0⟩)]
        [([.YELLOW, .YELLOW, .YELLOW, .YELLOW, .YELLOW], ["eabcd"]),
          (ALL_GREEN, ["abcde"])]
      = .ok ([(["eabcd"], ⟨"eabcd", 0⟩), (["abcde"], ⟨"abcde", 0⟩)],
          [((0 : ℚ) + 1, 1), ((0 : ℚ), 1)]) :=
    bucketsGo_cons_other (by decide) (by decide) hb1
      (bucketsGo_cons_green rfl rfl bucketsGo_nil)
  rw [egaGo_eval hpb hbk (by decide)]
  simp only [List.map_cons, List.map_nil, List.sum_cons, List.sum_nil,
    Except.ok.injEq, Prod.mk.injEq]
  norm_num

/-- The full engine run on the reversed tuple `("eabcd", "abcde")`: the same
tie is now resolved in favour of `"eabcd"`, the first guess in this
enumeration order. -/
theorem run_pair_2 : bestGuessF 2 [] ["eabcd", "abcde"]
    = .ok ([(["eabcd", "abcde"], ⟨"eabcd", 1/2⟩), (["eabcd"], ⟨"eabcd", 0⟩),
        (["abcde"], ⟨"abcde", 0⟩)], ⟨"eabcd", 1/2⟩) := by
  have hvals : valuesGo
      (fun mm guess => egaGo (bestGuessF 1) mm ["eabcd", "abcde"] guess) []
      ["eabcd", "abcde"]
      = .ok ([(["eabcd"], ⟨"eabcd", 0⟩), (["abcde"], ⟨"abcde", 0⟩)],
          [⟨"eabcd", (1/2 : ℚ)⟩, ⟨"abcde", (1/2 : ℚ)⟩]) :=
    valuesGo_cons ega_pair_1' (valuesGo_cons ega_pair_2' valuesGo_nil)
  have h2 := bestGuessF_succ_eval
    (show memoLookup [] ["eabcd", "abcde"] = none from rfl) hvals
  have hbest : minByExpectedAfter ⟨"eabcd", (1/2 : ℚ)⟩ [⟨"abcde", (1/2 : ℚ)⟩]
      = ⟨"eabcd", (1/2 : ℚ)⟩ := by
    simp only [minByExpectedAfter]
    rw [if_neg (by simp)]
  rw [hbest] at h2
  exact h2

/-- C1 (counterexample): on the spec's worked example, with the 4-letter
candidate set `{"abcd", "dcba"}` and guess `"abcd"`, `expected_guesses_after`
does not return 1/2: it diverges.  `ALL_GREEN` is hardcoded to five symbols,
so the all-exact 4-letter bucket is not matched and `best_guess` recurses
forever on the unshrunk singleton `("abcd",)`; in the embedding the call
runs out of every fuel budget, so in particular it never returns any value. -/
theorem worked_example_4letter_diverges : egaDiverges ["abcd", "dcba"] "abcd" :=
  fun fuel => egaGo_abcd_dcba_err (bestGuessF_abcd fuel)

/-- C1 (amended): the worked example holds for length-five words: for the
candidate set `{"abcde", "eabcd"}` and guess `"abcde"`, the feedback bucket
for `"abcde"` is all-Exact (size 1, contributing 0 with weight 1) and the
bucket for `"eabcd"` is all-Present (size 1, contributing 0+1 with weight
1), so the aggregated expected value is the exact rational 1/2. -/
theorem worked_example_5letter_value :
    expectedGuessesAfterF 1 [] ["abcde", "eabcd"] "abcde"
      = .ok ([(["eabcd"], ⟨"eabcd", 0⟩)], 1/2) := ega_pair_1

/-- C2 (counterexample): `best_guess` is not order-independent: on the two
enumeration orders of the same two-word candidate set the tie at expected
value 1/2 is broken by enumeration order, returning different guesses. -/
theorem best_guess_order_dependent :
    (bestGuessF 2 [] ["abcde", "eabcd"]).map (fun r => r.2.guess) = .ok "abcde" ∧
    (bestGuessF 2 [] ["eabcd", "abcde"]).map (fun r => r.2.guess) = .ok "eabcd" ∧
    (["abcde", "eabcd"] : List String).Perm ["eabcd", "abcde"] :=
  ⟨by rw [run_pair_1]; rfl, by rw [run_pair_2]; rfl, by decide⟩

/-- C2 (amended): repeated invocations of `best_guess` on the same candidate
tuple presented in the same construction order return the same guess and
value: a later call on the resulting run state is served from the memo with
the identical result.  (Presentations in a different order may return a
different, equally-scoring guess; see the counterexample.) -/
theorem best_guess_same_order_deterministic :
    ∀ (f f' : Nat) (m : Memo) (p : List String) (m' : Memo)
      (r : GuessWithExpectation), bestGuessF f m p = .ok (m', r) →
      bestGuessF (f' + 1) m' p = .ok (m', r) :=
  fun _ f' _ _ _ _ h => bestGuess_repeat h f'

/-- C2 (witness): the repeat-call determinism applied to the concrete run on
`("abcde", "eabcd")`. -/
theorem best_guess_same_order_deterministic_witness :
    bestGuessF 1 [(["abcde", "eabcd"], ⟨"abcde", 1/2⟩), (["abcde"], ⟨"abcde", 0⟩),
        (["eabcd"], ⟨"eabcd", 0⟩)] ["abcde", "eabcd"]
      = .ok ([(["abcde", "eabcd"], ⟨"abcde", 1/2⟩), (["abcde"], ⟨"abcde", 0⟩),
          (["eabcd"], ⟨"eabcd", 0⟩)], ⟨"abcde", 1/2⟩) :=
  best_guess_same_order_deterministic 2 0 [] ["abcde", "eabcd"] _ _ run_pair_1

/-- C3 (counterexample): the memo key is not canonical: after the run on
`("abcde", "eabcd")` caches its result, a lookup with the permuted tuple
`("eabcd", "abcde")` misses, so the cached result is not returned for a
permutation of the ordering. -/
theorem memo_misses_permuted_tuple :
    bestGuessF 2 [] ["abcde", "eabcd"]
      = .ok ([(["abcde", "eabcd"], ⟨"abcde", 1/2⟩), (["abcde"], ⟨"abcde", 0⟩),
          (["eabcd"], ⟨"eabcd", 0⟩)], ⟨"abcde", 1/2⟩) ∧
    memoLookup [(["abcde", "eabcd"], ⟨"abcde", 1/2⟩), (["abcde"], ⟨"abcde", 0⟩),
        (["eabcd"], ⟨"eabcd", 0⟩)] ["eabcd", "abcde"] = none :=
  ⟨run_pair_1, by decide⟩

/-- C3 (amended): the memo store keys candidate tuples by the raw ordered
tuple: a successful `best_guess` call leaves the memo mapping exactly the
tuple that was passed, in its construction order, to the returned result, so
a cached result is returned on a later call with the identical ordering
(permutations are distinct keys; see the counterexample). -/
theorem memo_caches_exact_tuple :
    ∀ (f : Nat) (m : Memo) (p : List String) (m' : Memo)
      (r : GuessWithExpectation), bestGuessF f m p = .ok (m', r) →
      memoLookup m' p = some r :=
  fun _ _ _ _ _ h => bestGuess_memo_after h

/-- C3 (witness): the exact-tuple caching applied to the concrete run on
`("abcde", "eabcd")`. -/
theorem memo_caches_exact_tuple_witness :
    memoLookup [(["abcde", "eabcd"], ⟨"abcde", 1/2⟩), (["abcde"], ⟨"abcde", 0⟩),
        (["eabcd"], ⟨"eabcd", 0⟩)] ["abcde", "eabcd"] = some ⟨"abcde", 1/2⟩ :=
  memo_caches_exact_tuple 2 [] ["abcde", "eabcd"] _ _ run_pair_1

/-- C4 (counterexample): termination fails for a non-empty pairwise-distinct
candidate collection of common length 4: on `("abcd", "dcba")` every fuel
budget is exhausted, because the exact-matching guess's all-green 4-letter
bucket is not absorbed by the hardcoded five-symbol `ALL_GREEN` and is
recursed on without shrinking. -/
theorem best_guess_common_length_diverges :
    bestGuessDiverges ["abcd", "dcba"] ∧ (["abcd", "dcba"] : List String) ≠ [] ∧
    (["abcd", "dcba"] : List String).Nodup ∧
    (["abcd", "dcba"] : List String).map String.length = [4, 4] :=
  ⟨fun fuel => bestGuessF_abcd_dcba fuel, by decide, by decide, by decide⟩

/-- C4 (amended): for every non-empty collection of pairwise-distinct
candidate words of length five, `best_guess` terminates from any memo state:
recursion depth `|candidates|` (fuel equal to the candidate count) suffices,
since every recursive call is on a feedback bucket that misses the guess and
is therefore strictly smaller than the current candidate set. -/
theorem best_guess_terminates_length_five :
    ∀ (p : List String) (m : Memo), p ≠ [] → p.Nodup →
      (∀ w ∈ p, w.length = 5) → ∃ r, bestGuessF p.length m p = .ok r :=
  fun p m h1 h2 h3 => bestGuessF_ok_of_le p.length p m le_rfl h1 h2 h3

/-- C4 (witness): termination applied to the concrete two-word length-five
candidate tuple. -/
theorem best_guess_terminates_length_five_witness :
    ∃ r, bestGuessF (["abcde", "eabcd"] : List String).length [] ["abcde", "eabcd"]
      = .ok r :=
  best_guess_terminates_length_five ["abcde", "eabcd"] [] (by decide) (by decide)
    (by decide)

/-- C5 (counterexample): on the singleton 4-letter candidate set
`("abcd",)`, `best_guess` does not return that word with expectation 0: it
diverges (the 4-letter all-green feedback differs from the five-symbol
`ALL_GREEN`, so the singleton bucket is recursed on forever). -/
theorem best_guess_singleton_4letter_diverges : bestGuessDiverges ["abcd"] :=
  fun fuel => bestGuessF_abcd fuel

/-- C5 (amended): for every candidate set containing exactly one word of
length five, `best_guess` (called on a run whose memo has no entry for that
singleton) returns that unique word paired with expected-additional-guesses
0, caching it under the singleton tuple. -/
theorem best_guess_singleton_returns_word :
    ∀ (w : String), w.length = 5 → ∀ (m : Memo), memoLookup m [w] = none →
      bestGuessF 1 m [w] = .ok (([w], ⟨w, 0⟩) :: m, ⟨w, 0⟩) :=
  fun _ h5 _ hms => best_guess_singleton_five h5 hms

/-- C5 (witness): the singleton base case at the concrete word `"abcde"`. -/
theorem best_guess_singleton_returns_word_witness :
    bestGuessF 1 [] ["abcde"] = .ok ([(["abcde"], ⟨"abcde", 0⟩)], ⟨"abcde", 0⟩) :=
  best_guess_singleton_returns_word "abcde" (by decide) [] rfl

/-- C6: for every candidate tuple of distinct words and guess drawn from it,
a successful `expected_guesses_after` (on a memo whose cached expectations
already have denominators dividing their key sizes, as the empty memo of a
fresh run trivially does) returns the exact weighted average: a rational
`z / |C|` for an integer `z`, whose denominator divides `|C|`. -/
theorem expected_guesses_weighted_average_exact :
    ∀ (fuel : Nat) (m : Memo) (p : List String) (g : String) (m' : Memo) (q : ℚ),
      p.Nodup → g ∈ p → MemoInv m → expectedGuessesAfterF fuel m p g = .ok (m', q) →
      (∃ z : ℤ, q = (z : ℚ) / (p.length : ℚ)) ∧ q.den ∣ p.length := by
  intro fuel m p g m' q _hnd hg hm hok
  obtain ⟨-, z, hz⟩ := egaGo_inv (bestGuessF_inv fuel) hm hok
  have hp0 : 0 < p.length := List.length_pos_of_mem hg
  have hpQ : ((p.length : ℕ) : ℚ) ≠ 0 := Nat.cast_ne_zero.mpr (by omega)
  have h1 : q = (z : ℚ) / ((p.length : ℕ) : ℚ) := by
    rw [eq_div_iff hpQ]
    exact hz
  refine ⟨⟨z, h1⟩, ?_⟩
  have h2 : (z : ℚ) / ((p.length : ℕ) : ℚ) = Rat.divInt z (p.length : ℤ) := by
    rw [Rat.divInt_eq_div]
    norm_num
  have hdvd : ((q.den : ℤ)) ∣ ((p.length : ℕ) : ℤ) := by
    rw [h1, h2]
    exact Rat.den_dvd z (p.length : ℤ)
  exact_mod_cast hdvd

/-- C6 (witness): the exact-arithmetic conclusion at the concrete evaluation
of guess `"abcde"` against the candidate pair, whose value is 1/2. -/
theorem expected_guesses_weighted_average_exact_witness :
    (∃ z : ℤ, (1/2 : ℚ) = (z : ℚ) / ((["abcde", "eabcd"] : List String).length : ℚ)) ∧
    (1/2 : ℚ).den ∣ (["abcde", "eabcd"] : List String).length :=
  expected_guesses_weighted_average_exact 1 [] ["abcde", "eabcd"] "abcde"
    [(["eabcd"], ⟨"eabcd", 0⟩)] (1/2) (by decide) (by decide) memoInv_nil ega_pair_1

/-- C7: for pairwise-distinct candidates and a guess drawn from them, every
bucket the partitioner produces is non-empty, any bucket keyed by the
all-Exact pattern is exactly the singleton of the guess, and consequently
the two assertions of `expected_guesses_after` never fail: the computation
never raises the assertion fault, at any fuel and from any memo state. -/
theorem partition_buckets_and_assertions :
    ∀ (p : List String) (g : String) (buckets : List (Hint × List String)),
      p.Nodup → g ∈ p → possibilities_by_hint p g = .ok buckets →
      (∀ b ∈ buckets, b.2 ≠ []) ∧ (∀ sub, (ALL_GREEN, sub) ∈ buckets → sub = [g]) ∧
      (∀ (fuel : Nat) (m : Memo),
        expectedGuessesAfterF fuel m p g ≠ .error .assertionFailed) :=
  fun _ g _ hnd _ hok =>
    ⟨fun b hb => (possibilities_by_hint_wf hok b hb).1,
      fun _ hs => bucket_ALL_GREEN_eq hnd hok hs,
      fun fuel m => egaGo_noassert (bestGuessF_noassert fuel) hnd g m⟩

/-- C7 (witness): the bucket soundness applied to the concrete partition of
the candidate pair by the guess `"abcde"`. -/
theorem partition_buckets_and_assertions_witness :
    (∀ b ∈ [(ALL_GREEN, ["abcde"]),
        ([.YELLOW, .YELLOW, .YELLOW, .YELLOW, .YELLOW], ["eabcd"])], b.2 ≠ []) ∧
    (∀ sub, (ALL_GREEN, sub) ∈ [(ALL_GREEN, ["abcde"]),
        ([.YELLOW, .YELLOW, .YELLOW, .YELLOW, .YELLOW], ["eabcd"])] → sub = ["abcde"]) ∧
    (∀ (fuel : Nat) (m : Memo),
      expectedGuessesAfterF fuel m ["abcde", "eabcd"] "abcde"
        ≠ .error .assertionFailed) :=
  partition_buckets_and_assertions ["abcde", "eabcd"] "abcde" _ (by decide)
    (by decide) (by decide)

/-- C8: for every candidate tuple and guess, a successful partition produces
buckets whose concatenated contents are, as a multiset, exactly the input
(every candidate appears in exactly one bucket), whose feedback keys are
pairwise distinct, and whose sizes sum to the number of candidates.  (The
embedding is purely functional, mirroring that the Python partitioner only
appends to fresh lists and never mutates its input.) -/
theorem partition_multiset_and_keys :
    ∀ (p : List String) (g : String) (buckets : List (Hint × List String)),
      possibilities_by_hint p g = .ok buckets →
      (bucketContents buckets).Perm p ∧ (buckets.map (fun b => b.1)).Nodup ∧
      (buckets.map (fun b => b.2.length)).sum = p.length :=
  fun _ _ _ hok => ⟨possibilities_by_hint_perm hok,
    possibilities_by_hint_keys_nodup hok, possibilities_by_hint_sizes hok⟩

/-- C8 (witness): the partition invariants at the concrete partition of the
candidate pair by `"abcde"`. -/
theorem partition_multiset_and_keys_witness :
    (bucketContents [(ALL_GREEN, ["abcde"]),
        ([.YELLOW, .YELLOW, .YELLOW, .YELLOW, .YELLOW], ["eabcd"])]).Perm
      ["abcde", "eabcd"] ∧
    ([(ALL_GREEN, ["abcde"]),
        ([.YELLOW, .YELLOW, .YELLOW, .YELLOW, .YELLOW], ["eabcd"])].map
      (fun b => b.1)).Nodup ∧
    ([(ALL_GREEN, ["abcde"]),
        ([.YELLOW, .YELLOW, .YELLOW, .YELLOW, .YELLOW], ["eabcd"])].map
      (fun b => b.2.length)).sum = (["abcde", "eabcd"] : List String).length :=
  partition_multiset_and_keys ["abcde", "eabcd"] "abcde" _ (by decide)

/-- C9: the feedback evaluator fails with the length-mismatch error exactly
on pairs of different lengths: for every pair of words of unequal length it
raises `LengthMismatch`, and for every pair of equal lengths it succeeds
(so it never raises that error there). -/
theorem hint_length_mismatch_check :
    ∀ (a b : String), (a.length ≠ b.length → hint a b = .error .lengthMismatch) ∧
      (a.length = b.length → ∃ h, hint a b = .ok h) :=
  fun a b => ⟨fun hne => by unfold hint; rw [if_pos hne],
    fun heq => hint_ok_of_length heq⟩

/-- C9 (witness): the length check at the concrete pairs `("ab", "abc")`
(mismatched) and `("abc", "abd")` (matched). -/
theorem hint_length_mismatch_check_witness :
    hint "ab" "abc" = .error .lengthMismatch ∧ ∃ h, hint "abc" "abd" = .ok h :=
  ⟨(hint_length_mismatch_check "ab" "abc").1 (by decide),
    (hint_length_mismatch_check "abc" "abd").2 (by decide)⟩

/-- C10: for every successfully evaluated pair, the feedback is the
all-Exact pattern (all-green of the secret's length) exactly when the secret
equals the guess, and position `i` of the feedback is Exact exactly when the
two words agree at position `i`. -/
theorem hint_green_positions :
    ∀ (a b : String) (h : Hint), hint a b = .ok h →
      (h = List.replicate a.length .GREEN ↔ a = b) ∧
      (∀ i, i < a.length → (h[i]? = some .GREEN ↔ a.data[i]? = b.data[i]?)) :=
  fun _ _ _ hh => ⟨hint_replicate_green_iff hh, fun i hi => hint_green_pos hh i hi⟩

/-- C10 (witness): the green-position characterization at the concrete pair
`("abcde", "eabcd")`, whose feedback is all-Present. -/
theorem hint_green_positions_witness :
    (([.YELLOW, .YELLOW, .YELLOW, .YELLOW, .YELLOW] : Hint)
        = List.replicate ("abcde" : String).length .GREEN ↔
      ("abcde" : String) = "eabcd") ∧
    (∀ i, i < ("abcde" : String).length →
      (([.YELLOW, .YELLOW, .YELLOW, .YELLOW, .YELLOW] : Hint)[i]? = some .GREEN ↔
        ("abcde" : String).data[i]? = ("eabcd" : String).data[i]?)) :=
  hint_green_positions "abcde" "eabcd" _ (by decide)

end Wordle
